import Mathlib

/-!
Verification of the Juno bulk-deletion runner (`clear_firestore.py`).

The script authenticates to a document store, enumerates collections,
streams each collection's documents, deletes them in batches of at most
100, and reports per-collection and total counts.  We embed it as a
trace-producing function over an abstract `Store` that allows failure
injection at each external call site (credential acquisition, client
construction, collection enumeration, document streaming, batch commit).
-/

namespace ClearFirestore

/-- An opaque document reference, modelled by a natural-number id. -/
abbrev Ref := Nat

/-- A collection of the remote store: its id, the sequence of documents its
stream yields, and whether the stream raises after yielding them. -/
structure Collection where
  id : String
  docs : List Ref
  streamFails : Bool

/-- The remote store together with the failure behaviour of each external
call.  `commitFails i` tells whether the `i`-th batch-commit call of the
run raises. -/
structure Store where
  authFails : Bool
  clientFails : Bool
  enumFails : Bool
  collections : List Collection
  commitFails : Nat → Bool

/-- Observable events of a run: external calls made by the script and the
reports it prints.  A `commit` records the collection id, the batch
contents in insertion order, and whether the commit call succeeded. -/
inductive Event where
  | enumerate : Event
  | streamCall : String → Event
  | deleteAdd : String → Ref → Event
  | commit : String → List Ref → Bool → Event
  | reportCollection : String → Nat → Event
  | reportTotal : Nat → Event
  | logError : Event
deriving DecidableEq, Repr

/-- The inner document loop of `clear_firestore` for one collection
(`for doc in docs: ...` plus the final partial commit).  Arguments mirror
the Python locals: the remaining stream, the mutable batch contents,
`collection_count` so far, and the global commit-call counter used to
consult `cf`.  Returns the events emitted, the new commit counter, and
`some collection_count` on success or `none` when a call raised. -/
def runDocs (cid : String) (sf : Bool) (cf : Nat → Bool) :
    List Ref → List Ref → Nat → Nat → List Event × Nat × Option Nat
  | [], batch, ccount, ci =>
      if sf then ([], ci, none)
      else if batch = [] then ([], ci, some ccount)
      else if cf ci then ([Event.commit cid batch false], ci + 1, none)
      else ([Event.commit cid batch true], ci + 1, some ccount)
  | r :: rest, batch, ccount, ci =>
      let batch2 := batch ++ [r]
      if 100 ≤ batch2.length then
        if cf ci then
          ([Event.deleteAdd cid r, Event.commit cid batch2 false], ci + 1, none)
        else
          let res := runDocs cid sf cf rest [] (ccount + 1) (ci + 1)
          (Event.deleteAdd cid r :: Event.commit cid batch2 true :: res.1, res.2)
      else
        let res := runDocs cid sf cf rest batch2 (ccount + 1) ci
        (Event.deleteAdd cid r :: res.1, res.2)

/-- Processing of one collection: call `stream()`, run the document loop
starting from an empty batch and zero count, and on success print the
per-collection summary. -/
def runCollection (cf : Nat → Bool) (c : Collection) (ci : Nat) :
    List Event × Nat × Option Nat :=
  let r := runDocs c.id c.streamFails cf c.docs [] 0 ci
  match r.2.2 with
  | none => (Event.streamCall c.id :: r.1, r.2.1, none)
  | some n =>
      (Event.streamCall c.id :: r.1 ++ [Event.reportCollection c.id n], r.2.1, some n)

/-- The `for collection in collections` loop, accumulating `total_deleted`. -/
def runCollections (cf : Nat → Bool) :
    List Collection → Nat → Nat → List Event × Nat × Option Nat
  | [], total, ci => ([], ci, some total)
  | c :: cs, total, ci =>
      let r := runCollection cf c ci
      match r.2.2 with
      | none => (r.1, r.2.1, none)
      | some n =>
          let r2 := runCollections cf cs (total + n) r.2.1
          (r.1 ++ r2.1, r2.2)

/-- The whole `clear_firestore()` function.  Credential/app-initialization
failure is caught by the inner handler (which logs and returns `False`);
client construction, enumeration, streaming and commit errors propagate to
the outer handler (which logs and returns `False`).  On success the grand
total is printed and `True` is returned. -/
def clear_firestore (s : Store) : List Event × Bool :=
  if s.authFails then ([Event.logError], false)
  else if s.clientFails then ([Event.logError], false)
  else if s.enumFails then ([Event.enumerate, Event.logError], false)
  else
    let r := runCollections s.commitFails s.collections 0 0
    match r.2.2 with
    | none => (Event.enumerate :: r.1 ++ [Event.logError], false)
    | some total => (Event.enumerate :: r.1 ++ [Event.reportTotal total], true)

/-- The `__main__` block: exit status 0 on success, 1 on failure. -/
def mainExitCode (s : Store) : Nat :=
  if (clear_firestore s).2 then 0 else 1

/-- All batch-commit calls of a trace, in order: collection id, batch
contents, success flag. -/
def commitList (evs : List Event) : List (String × List Ref × Bool) :=
  evs.filterMap fun e => match e with
    | Event.commit c b ok => some (c, b, ok)
    | _ => none

/-- The contents of the successfully committed batches of a trace. -/
def committedBatches (evs : List Event) : List (List Ref) :=
  evs.filterMap fun e => match e with
    | Event.commit _ b true => some b
    | _ => none

/-- Number of batch-commit calls in a trace. -/
def commitCallCount (evs : List Event) : Nat :=
  (commitList evs).length

/-- Sum of the sizes of the successfully committed batches of a trace. -/
def committedSizesSum (evs : List Event) : Nat :=
  ((committedBatches evs).map List.length).sum

/-- The per-collection counts reported by a trace, in order. -/
def collectionReports (evs : List Event) : List Nat :=
  evs.filterMap fun e => match e with
    | Event.reportCollection _ n => some n
    | _ => none

/-- The document references handed to `batch.delete` in a trace, in order. -/
def deleteAddRefs (evs : List Event) : List Ref :=
  evs.filterMap fun e => match e with
    | Event.deleteAdd _ r => some r
    | _ => none

/-- All references deleted by the run: everything in a committed batch. -/
def deletedRefs (evs : List Event) : List Ref :=
  (committedBatches evs).flatten

/-- The grand total printed by the run, when one was printed. -/
def totalReported (evs : List Event) : Option Nat :=
  (evs.filterMap fun e => match e with
    | Event.reportTotal n => some n
    | _ => none).head?

/-- Sizes of the commit calls of a trace made for one collection id. -/
def commitSizesFor (cid : String) (evs : List Event) : List Nat :=
  evs.filterMap fun e => match e with
    | Event.commit c b _ => if c = cid then some b.length else none
    | _ => none

/-! ### Concrete stores used as test inputs -/

/-- A commit-failure oracle under which no commit ever raises. -/
def noFail : Nat → Bool := fun _ => false

/-- The spec's scenario: "users" with 150 documents. -/
def usersCollection : Collection := ⟨"users", List.range 150, false⟩

/-- The spec's scenario: "logs" with no documents. -/
def logsCollection : Collection := ⟨"logs", [], false⟩

/-- The spec's scenario store: two collections, 150 and 0 documents. -/
def scenarioStore : Store :=
  ⟨false, false, false, [usersCollection, logsCollection], noFail⟩

/-- A healthy store holding a single document. -/
def oneDocStore : Store := ⟨false, false, false, [⟨"c", [0], false⟩], noFail⟩

/-- A healthy store holding two documents in one collection. -/
def twoDocStore : Store := ⟨false, false, false, [⟨"c", [0, 1], false⟩], noFail⟩

/-- A store whose credential acquisition fails. -/
def authFailStore : Store := ⟨true, false, false, [⟨"c", [0], false⟩], noFail⟩

/-- A store with collections but no documents at all. -/
def emptyColStore : Store :=
  ⟨false, false, false, [⟨"a", [], false⟩, ⟨"b", [], false⟩], noFail⟩

/-! ### Trace-function distribution lemmas -/

theorem commitList_append (l1 l2 : List Event) :
    commitList (l1 ++ l2) = commitList l1 ++ commitList l2 := by
  simp [commitList]

theorem committedBatches_append (l1 l2 : List Event) :
    committedBatches (l1 ++ l2) = committedBatches l1 ++ committedBatches l2 := by
  simp [committedBatches]

theorem collectionReports_append (l1 l2 : List Event) :
    collectionReports (l1 ++ l2) = collectionReports l1 ++ collectionReports l2 := by
  simp [collectionReports]

theorem deleteAddRefs_append (l1 l2 : List Event) :
    deleteAddRefs (l1 ++ l2) = deleteAddRefs l1 ++ deleteAddRefs l2 := by
  simp [deleteAddRefs]

theorem committedSizesSum_append (l1 l2 : List Event) :
    committedSizesSum (l1 ++ l2) = committedSizesSum l1 + committedSizesSum l2 := by
  simp [committedSizesSum, committedBatches_append]

/-! ### Properties of the inner document loop -/

/-- Every batch-commit call made by the document loop, starting from a batch
of fewer than 100 pending deletes, carries between 1 and 100 references. -/
theorem runDocs_commit_sizes (cid : String) (sf : Bool) (cf : Nat → Bool)
    (d : List Ref) :
    ∀ b cc ci, b.length ≤ 99 →
      ∀ x ∈ commitList (runDocs cid sf cf d b cc ci).1,
        1 ≤ x.2.1.length ∧ x.2.1.length ≤ 100 := by
  induction d with
  | nil =>
      intro b cc ci hb x hx
      simp only [runDocs] at hx
      split at hx
      · simp [commitList] at hx
      · split at hx
        · simp [commitList] at hx
        · rename_i hbne
          have hlen : b.length ≠ 0 := fun h0 => hbne (List.eq_nil_of_length_eq_zero h0)
          split at hx <;>
          · simp [commitList, List.filterMap_cons] at hx
            subst hx
            show 1 ≤ b.length ∧ b.length ≤ 100
            omega
  | cons r rest ih =>
      intro b cc ci hb x hx
      simp only [runDocs] at hx
      split at hx
      · rename_i hlen
        simp only [List.length_append, List.length_cons, List.length_nil] at hlen
        split at hx
        · simp [commitList, List.filterMap_cons] at hx
          subst hx
          show 1 ≤ (b ++ [r]).length ∧ (b ++ [r]).length ≤ 100
          simp only [List.length_append, List.length_cons, List.length_nil]
          omega
        · rw [show ∀ a c l, (a :: c :: l) = [a, c] ++ l by intros; rfl] at hx
          rw [commitList_append] at hx
          rcases List.mem_append.mp hx with hx | hx
          · simp [commitList, List.filterMap_cons] at hx
            subst hx
            show 1 ≤ (b ++ [r]).length ∧ (b ++ [r]).length ≤ 100
            simp only [List.length_append, List.length_cons, List.length_nil]
            omega
          · exact ih [] (cc + 1) (ci + 1) (by simp) x hx
      · rename_i hlen
        rw [show ∀ a l, (a :: l) = [a] ++ l by intros; rfl] at hx
        rw [commitList_append] at hx
        rcases List.mem_append.mp hx with hx | hx
        · simp [commitList] at hx
        · refine ih (b ++ [r]) (cc + 1) ci ?_ x hx
          simp only [List.length_append, List.length_cons, List.length_nil] at hlen ⊢
          omega

/-- When the document loop finishes without an error, it has returned
`collection_count = ccount + d.length`, the successfully committed batches
concatenate exactly to the pending batch followed by the stream, every
yielded document was handed to `batch.delete` in order, and every commit
call succeeded. -/
theorem runDocs_success (cid : String) (sf : Bool) (cf : Nat → Bool)
    (d : List Ref) :
    ∀ b cc ci evs ci2 n,
      runDocs cid sf cf d b cc ci = (evs, ci2, some n) →
      n = cc + d.length ∧
      (committedBatches evs).flatten = b ++ d ∧
      deleteAddRefs evs = d ∧
      ∀ x ∈ commitList evs, x.2.2 = true := by
  induction d with
  | nil =>
      intro b cc ci evs ci2 n h
      simp only [runDocs] at h
      split at h
      · simp at h
      · split at h
        · rename_i hsf hbe
          simp only [Prod.mk.injEq, Option.some.injEq] at h
          obtain ⟨rfl, rfl, rfl⟩ := h
          subst hbe
          simp [committedBatches, deleteAddRefs, commitList]
        · split at h
          · simp at h
          · simp only [Prod.mk.injEq, Option.some.injEq] at h
            obtain ⟨rfl, rfl, rfl⟩ := h
            simp [committedBatches, deleteAddRefs, commitList, List.filterMap_cons]
  | cons r rest ih =>
      intro b cc ci evs ci2 n h
      simp only [runDocs] at h
      split at h
      · split at h
        · simp at h
        · rcases hr : runDocs cid sf cf rest [] (cc + 1) (ci + 1) with ⟨evs3, ci3, res3⟩
          rw [hr] at h
          simp only [Prod.mk.injEq] at h
          obtain ⟨rfl, rfl, rfl⟩ := h
          obtain ⟨hn, hflat, hdel, hok⟩ := ih [] (cc + 1) (ci + 1) evs3 ci3 n hr
          refine ⟨by simp only [List.length_cons, hn]; omega, ?_, ?_, ?_⟩
          · simp only [committedBatches] at hflat ⊢
            simp [List.filterMap_cons, hflat]
          · simp only [deleteAddRefs] at hdel ⊢
            simp [List.filterMap_cons, hdel]
          · intro x hx
            simp [commitList, List.filterMap_cons] at hx
            rcases hx with hx | hx
            · simp [hx]
            · exact hok x (by simpa [commitList] using hx)
      · rcases hr : runDocs cid sf cf rest (b ++ [r]) (cc + 1) ci with ⟨evs3, ci3, res3⟩
        rw [hr] at h
        simp only [Prod.mk.injEq] at h
        obtain ⟨rfl, rfl, rfl⟩ := h
        obtain ⟨hn, hflat, hdel, hok⟩ := ih (b ++ [r]) (cc + 1) ci evs3 ci3 n hr
        refine ⟨by simp only [List.length_cons, hn]; omega, ?_, ?_, ?_⟩
        · simp only [committedBatches] at hflat ⊢
          simp [List.filterMap_cons, hflat]
        · simp only [deleteAddRefs] at hdel ⊢
          simp [List.filterMap_cons, hdel]
        · intro x hx
          simp [commitList, List.filterMap_cons] at hx
          exact hok x (by simpa [commitList] using hx)

/-- The number of commit calls made by the document loop on a successful
pass over the stream is the ceiling of (pending + streamed) divided by 100,
with no call at all when there is nothing to flush. -/
theorem runDocs_success_commitCount (cid : String) (sf : Bool) (cf : Nat → Bool)
    (d : List Ref) :
    ∀ b cc ci evs ci2 n, b.length ≤ 99 →
      runDocs cid sf cf d b cc ci = (evs, ci2, some n) →
      commitCallCount evs =
        (if b.length + d.length = 0 then 0 else (b.length + d.length + 99) / 100) := by
  induction d with
  | nil =>
      intro b cc ci evs ci2 n hb h
      simp only [runDocs] at h
      split at h
      · simp at h
      · split at h
        · rename_i hbe
          simp only [Prod.mk.injEq, Option.some.injEq] at h
          obtain ⟨rfl, rfl, rfl⟩ := h
          subst hbe
          simp [commitCallCount, commitList]
        · rename_i hbe
          split at h
          · simp at h
          · simp only [Prod.mk.injEq, Option.some.injEq] at h
            obtain ⟨rfl, rfl, rfl⟩ := h
            have hlen : b.length ≠ 0 := fun h0 => hbe (List.eq_nil_of_length_eq_zero h0)
            simp only [commitCallCount, commitList, List.filterMap_cons, List.filterMap_nil,
              List.length_cons, List.length_nil, Nat.zero_add, Nat.add_zero]
            rw [if_neg (by omega)]
            omega
  | cons r rest ih =>
      intro b cc ci evs ci2 n hb h
      simp only [runDocs] at h
      split at h
      · rename_i hlen
        simp only [List.length_append, List.length_cons, List.length_nil] at hlen
        split at h
        · simp at h
        · rcases hr : runDocs cid sf cf rest [] (cc + 1) (ci + 1) with ⟨evs3, ci3, res3⟩
          rw [hr] at h
          simp only [Prod.mk.injEq] at h
          obtain ⟨rfl, rfl, rfl⟩ := h
          have hcount := ih [] (cc + 1) (ci + 1) evs3 ci3 n (by simp) hr
          simp only [commitCallCount, commitList, List.filterMap_cons, List.length_cons,
            List.length_nil, Nat.zero_add] at hcount ⊢
          rw [hcount]
          by_cases h0 : rest.length = 0 <;> simp [h0] <;> omega
      · rename_i hlen
        simp only [List.length_append, List.length_cons, List.length_nil] at hlen
        rcases hr : runDocs cid sf cf rest (b ++ [r]) (cc + 1) ci with ⟨evs3, ci3, res3⟩
        rw [hr] at h
        simp only [Prod.mk.injEq] at h
        obtain ⟨rfl, rfl, rfl⟩ := h
        have hcount := ih (b ++ [r]) (cc + 1) ci evs3 ci3 n
          (by simp only [List.length_append, List.length_cons, List.length_nil]; omega) hr
        simp only [commitCallCount, commitList, List.filterMap_cons, List.length_append,
          List.length_cons, List.length_nil, Nat.zero_add] at hcount ⊢
        rw [hcount]
        simp only [Nat.add_eq_zero, Nat.add_one_ne_zero, and_false, false_and, if_false]
        omega

/-- When no external call of the document loop raises, the loop succeeds
and returns `ccount` plus the length of the stream. -/
theorem runDocs_no_failure (cid : String) (cf : Nat → Bool) (d : List Ref)
    (hcf : ∀ i, cf i = false) :
    ∀ b cc ci, (runDocs cid false cf d b cc ci).2.2 = some (cc + d.length) := by
  induction d with
  | nil =>
      intro b cc ci
      simp only [runDocs]
      split
      · simp_all
      · split
        · simp
        · simp [hcf ci]
  | cons r rest ih =>
      intro b cc ci
      simp only [runDocs]
      split
      · simp only [hcf ci, if_false, Bool.false_eq_true]
        rw [show (cc + (r :: rest).length) = (cc + 1) + rest.length by simp; omega]
        exact ih [] (cc + 1) (ci + 1)
      · rw [show (cc + (r :: rest).length) = (cc + 1) + rest.length by simp; omega]
        exact ih (b ++ [r]) (cc + 1) ci

/-- The document loop never prints a per-collection summary or a grand
total itself. -/
theorem runDocs_no_reports (cid : String) (sf : Bool) (cf : Nat → Bool)
    (d : List Ref) :
    ∀ b cc ci,
      collectionReports (runDocs cid sf cf d b cc ci).1 = [] ∧
      (∀ t, Event.reportTotal t ∉ (runDocs cid sf cf d b cc ci).1) := by
  induction d with
  | nil =>
      intro b cc ci
      simp only [runDocs]
      split
      · simp [collectionReports]
      · split
        · simp [collectionReports]
        · split <;> simp [collectionReports, List.filterMap_cons]
  | cons r rest ih =>
      intro b cc ci
      simp only [runDocs]
      split
      · split
        · simp [collectionReports, List.filterMap_cons]
        · obtain ⟨h1, h2⟩ := ih [] (cc + 1) (ci + 1)
          constructor
          · simp [collectionReports, List.filterMap_cons]
            simpa [collectionReports] using h1
          · intro t
            simp only [List.mem_cons]
            push_neg
            exact ⟨by simp, by simp, h2 t⟩
      · obtain ⟨h1, h2⟩ := ih (b ++ [r]) (cc + 1) ci
        constructor
        · simp [collectionReports, List.filterMap_cons]
          simpa [collectionReports] using h1
        · intro t
          simp only [List.mem_cons]
          push_neg
          exact ⟨by simp, h2 t⟩

/-- Among the commit calls of the document loop, only the last one can
fail: a failed commit is never followed by another commit call. -/
theorem runDocs_dropLast_ok (cid : String) (sf : Bool) (cf : Nat → Bool)
    (d : List Ref) :
    ∀ b cc ci,
      ∀ x ∈ (commitList (runDocs cid sf cf d b cc ci).1).dropLast, x.2.2 = true := by
  induction d with
  | nil =>
      intro b cc ci x hx
      simp only [runDocs] at hx
      split at hx
      · simp [commitList] at hx
      · split at hx
        · simp [commitList] at hx
        · split at hx <;> simp [commitList, List.filterMap_cons] at hx
  | cons r rest ih =>
      intro b cc ci x hx
      simp only [runDocs] at hx
      split at hx
      · split at hx
        · simp [commitList, List.filterMap_cons] at hx
        · simp only [commitList, List.filterMap_cons] at hx
          rcases hcl : List.filterMap _ (runDocs cid sf cf rest [] (cc + 1) (ci + 1)).1
            with _ | ⟨y, ys⟩
          · rw [hcl] at hx
            simp at hx
          · rw [hcl] at hx
            rw [List.dropLast_cons₂] at hx
            rcases List.mem_cons.mp hx with hx | hx
            · simp [hx]
            · refine ih [] (cc + 1) (ci + 1) x ?_
              simp only [commitList, hcl]
              exact hx
      · simp only [commitList, List.filterMap_cons] at hx
        exact ih (b ++ [r]) (cc + 1) ci x (by simpa [commitList] using hx)

/-! ### Properties of one collection's processing -/

/-- The commit calls of one collection's processing are exactly those of
its document loop: the stream call and the summary line add none. -/
theorem runCollection_commitList (cf : Nat → Bool) (c : Collection) (ci : Nat) :
    commitList (runCollection cf c ci).1 =
      commitList (runDocs c.id c.streamFails cf c.docs [] 0 ci).1 := by
  rcases hr : runDocs c.id c.streamFails cf c.docs [] 0 ci with ⟨evs3, ci3, res3⟩
  simp only [runCollection, hr]
  rcases res3 with _ | m
  · simp [commitList, List.filterMap_cons]
  · dsimp only
    rw [show Event.streamCall c.id :: evs3 ++ [Event.reportCollection c.id m] =
        [Event.streamCall c.id] ++ evs3 ++ [Event.reportCollection c.id m] from rfl]
    rw [commitList_append, commitList_append]
    simp [commitList, List.filterMap_cons]

/-- One collection's processing never prints a grand total. -/
theorem runCollection_no_total (cf : Nat → Bool) (c : Collection) (ci : Nat) :
    ∀ t, Event.reportTotal t ∉ (runCollection cf c ci).1 := by
  rcases hr : runDocs c.id c.streamFails cf c.docs [] 0 ci with ⟨evs3, ci3, res3⟩
  have hnr := (runDocs_no_reports c.id c.streamFails cf c.docs [] 0 ci).2
  rw [hr] at hnr
  simp only [runCollection, hr]
  rcases res3 with _ | m <;> intro t <;> simp_all

/-- Successful processing of one collection: the count returned and
reported is the length of the stream, the committed batches concatenate to
the stream, every streamed document was added to a batch, the number of
commit calls is ⌈N/100⌉, and every commit call succeeded. -/
theorem runCollection_success (cf : Nat → Bool) (c : Collection) (ci : Nat)
    (evs : List Event) (ci2 n : Nat)
    (h : runCollection cf c ci = (evs, ci2, some n)) :
    n = c.docs.length ∧
    collectionReports evs = [n] ∧
    (committedBatches evs).flatten = c.docs ∧
    deleteAddRefs evs = c.docs ∧
    commitCallCount evs = (if c.docs.length = 0 then 0 else (c.docs.length + 99) / 100) ∧
    (∀ x ∈ commitList evs, x.2.2 = true) := by
  rcases hr : runDocs c.id c.streamFails cf c.docs [] 0 ci with ⟨evs3, ci3, res3⟩
  simp only [runCollection, hr] at h
  rcases res3 with _ | m
  · simp at h
  · dsimp only at h
    simp only [Prod.mk.injEq, Option.some.injEq] at h
    obtain ⟨rfl, rfl, rfl⟩ := h
    obtain ⟨hn, hflat, hdel, hok⟩ :=
      runDocs_success c.id c.streamFails cf c.docs [] 0 ci evs3 ci3 m hr
    have hcc := runDocs_success_commitCount c.id c.streamFails cf c.docs [] 0 ci
      evs3 ci3 m (by simp) hr
    have hnr := runDocs_no_reports c.id c.streamFails cf c.docs [] 0 ci
    rw [hr] at hnr
    simp only [List.length_nil, Nat.zero_add] at hn hcc
    subst hn
    have hsplit : Event.streamCall c.id :: evs3 ++ [Event.reportCollection c.id c.docs.length] =
        [Event.streamCall c.id] ++ evs3 ++ [Event.reportCollection c.id c.docs.length] := rfl
    refine ⟨rfl, ?_, ?_, ?_, ?_, ?_⟩
    · rw [hsplit, collectionReports_append, collectionReports_append, hnr.1]
      simp [collectionReports, List.filterMap_cons]
    · rw [hsplit, committedBatches_append, committedBatches_append]
      simp only [committedBatches, List.filterMap_cons, List.filterMap_nil]
      simp only [committedBatches] at hflat
      simpa using hflat
    · rw [hsplit, deleteAddRefs_append, deleteAddRefs_append]
      simp only [deleteAddRefs, List.filterMap_cons, List.filterMap_nil]
      simp only [deleteAddRefs] at hdel
      simpa using hdel
    · rw [show commitCallCount (Event.streamCall c.id :: evs3 ++
          [Event.reportCollection c.id c.docs.length]) =
          (commitList (Event.streamCall c.id :: evs3 ++
            [Event.reportCollection c.id c.docs.length])).length from rfl]
      rw [hsplit, commitList_append, commitList_append]
      simpa [commitList, List.filterMap_cons, commitCallCount] using hcc
    · intro x hx
      rw [hsplit, commitList_append, commitList_append] at hx
      simp only [commitList, List.filterMap_cons, List.filterMap_nil] at hx
      simp only [List.append_nil, List.nil_append] at hx
      exact hok x (by simpa [commitList] using hx)

/-- If no external call raises, one collection's processing succeeds and
returns the length of its stream. -/
theorem runCollection_no_failure (cf : Nat → Bool) (c : Collection) (ci : Nat)
    (hsf : c.streamFails = false) (hcf : ∀ i, cf i = false) :
    (runCollection cf c ci).2.2 = some c.docs.length := by
  rcases hr : runDocs c.id c.streamFails cf c.docs [] 0 ci with ⟨evs3, ci3, res3⟩
  have hres := runDocs_no_failure c.id cf c.docs hcf [] 0 ci
  rw [← hsf, hr] at hres
  simp only at hres
  subst hres
  simp only [runCollection, hr]
  simp

/-- Commit calls of one collection, dropping the last: all succeeded. -/
theorem runCollection_dropLast_ok (cf : Nat → Bool) (c : Collection) (ci : Nat) :
    ∀ x ∈ (commitList (runCollection cf c ci).1).dropLast, x.2.2 = true := by
  rw [runCollection_commitList]
  exact runDocs_dropLast_ok c.id c.streamFails cf c.docs [] 0 ci

/-- The sum of the committed batch sizes of a trace is the length of their
concatenation. -/
theorem committedSizesSum_eq_flatten_length (evs : List Event) :
    committedSizesSum evs = (committedBatches evs).flatten.length := by
  simp [committedSizesSum, List.length_flatten]

/-- Splitting membership in the dropLast of an appended list. -/
theorem mem_dropLast_append {α : Type} (l1 l2 : List α) (x : α)
    (hx : x ∈ (l1 ++ l2).dropLast) : x ∈ l1 ∨ x ∈ l2.dropLast := by
  rcases l2 with _ | ⟨y, ys⟩
  · exact Or.inl (List.dropLast_subset l1 (by simpa using hx))
  · rw [List.dropLast_append_cons] at hx
    exact List.mem_append.mp hx

/-! ### Properties of the collection loop -/

/-- The collection loop never prints the grand total (that happens at top
level only), whatever the outcome. -/
theorem runCollections_no_total (cf : Nat → Bool) (cs : List Collection) :
    ∀ total ci t, Event.reportTotal t ∉ (runCollections cf cs total ci).1 := by
  induction cs with
  | nil => intro total ci t; simp [runCollections]
  | cons c cs ih =>
      intro total ci t
      simp only [runCollections]
      rcases hr : runCollection cf c ci with ⟨evs1, ci1, res1⟩
      have hnt1 := runCollection_no_total cf c ci t
      rw [hr] at hnt1
      rcases res1 with _ | n
      · simpa using hnt1
      · dsimp only
        rcases hr2 : runCollections cf cs (total + n) ci1 with ⟨evs2, ci2, res2⟩
        have hnt2 := ih (total + n) ci1 t
        rw [hr2] at hnt2
        intro hmem
        rcases List.mem_append.mp hmem with hmem | hmem
        · exact hnt1 hmem
        · exact hnt2 hmem

/-- Successful completion of the collection loop: the returned total is
the initial accumulator plus the sum of the reported per-collection
counts, that sum equals the sum of all committed batch sizes, and every
commit call succeeded. -/
theorem runCollections_success (cf : Nat → Bool) (cs : List Collection) :
    ∀ total ci evs ci2 T,
      runCollections cf cs total ci = (evs, ci2, some T) →
      T = total + (collectionReports evs).sum ∧
      committedSizesSum evs = (collectionReports evs).sum ∧
      (∀ x ∈ commitList evs, x.2.2 = true) := by
  induction cs with
  | nil =>
      intro total ci evs ci2 T h
      simp only [runCollections, Prod.mk.injEq, Option.some.injEq] at h
      obtain ⟨rfl, rfl, rfl⟩ := h
      simp [collectionReports, committedSizesSum, committedBatches, commitList]
  | cons c cs ih =>
      intro total ci evs ci2 T h
      simp only [runCollections] at h
      rcases hr : runCollection cf c ci with ⟨evs1, ci1, res1⟩
      rw [hr] at h
      rcases res1 with _ | n
      · simp at h
      · dsimp only at h
        rcases hr2 : runCollections cf cs (total + n) ci1 with ⟨evs2, ci2a, res2⟩
        rw [hr2] at h
        simp only [Prod.mk.injEq] at h
        obtain ⟨rfl, rfl, h3⟩ := h
        rw [h3] at hr2
        obtain ⟨hT, hsum2, hok2⟩ := ih (total + n) ci1 evs2 ci2a T hr2
        obtain ⟨hn, hrep1, hflat1, hdel1, hcc1, hok1⟩ :=
          runCollection_success cf c ci evs1 ci1 n hr
        have hsz1 : committedSizesSum evs1 = n := by
          rw [committedSizesSum_eq_flatten_length, hflat1, hn]
        refine ⟨?_, ?_, ?_⟩
        · rw [collectionReports_append, hrep1, List.sum_append]
          simp only [List.sum_cons, List.sum_nil]
          omega
        · rw [collectionReports_append, hrep1, List.sum_append, committedSizesSum_append,
            hsz1, hsum2]
          simp
        · intro x hx
          rw [commitList_append] at hx
          rcases List.mem_append.mp hx with hx | hx
          · exact hok1 x hx
          · exact hok2 x hx

/-- Among all commit calls of the collection loop, only the last can
fail. -/
theorem runCollections_dropLast_ok (cf : Nat → Bool) (cs : List Collection) :
    ∀ total ci,
      ∀ x ∈ (commitList (runCollections cf cs total ci).1).dropLast, x.2.2 = true := by
  induction cs with
  | nil => intro total ci x hx; simp [runCollections, commitList] at hx
  | cons c cs ih =>
      intro total ci x hx
      simp only [runCollections] at hx
      rcases hr : runCollection cf c ci with ⟨evs1, ci1, res1⟩
      rw [hr] at hx
      have hd1 := runCollection_dropLast_ok cf c ci
      rw [hr] at hd1
      rcases res1 with _ | n
      · exact hd1 x (by simpa using hx)
      · dsimp only at hx
        rcases hr2 : runCollections cf cs (total + n) ci1 with ⟨evs2, ci2a, res2⟩
        rw [hr2] at hx
        simp only at hx
        rw [commitList_append] at hx
        rcases mem_dropLast_append _ _ x hx with hx | hx
        · obtain ⟨hn, hrep1, hflat1, hdel1, hcc1, hok1⟩ :=
            runCollection_success cf c ci evs1 ci1 n hr
          exact hok1 x hx
        · have := ih (total + n) ci1
          rw [hr2] at this
          exact this x hx

/-- If every collection is empty and no stream raises, the collection loop
makes no delete and no commit call, and returns the accumulator. -/
theorem runCollections_empty (cf : Nat → Bool) (cs : List Collection)
    (hcs : ∀ c ∈ cs, c.docs = [] ∧ c.streamFails = false) :
    ∀ total ci,
      (runCollections cf cs total ci).2.2 = some total ∧
      deleteAddRefs (runCollections cf cs total ci).1 = [] ∧
      commitCallCount (runCollections cf cs total ci).1 = 0 := by
  induction cs with
  | nil =>
      intro total ci
      simp [runCollections, deleteAddRefs, commitCallCount, commitList]
  | cons c cs ih =>
      intro total ci
      obtain ⟨hd, hs⟩ := hcs c (by simp)
      have hrc : runCollection cf c ci =
          ([Event.streamCall c.id, Event.reportCollection c.id 0], ci, some 0) := by
        simp only [runCollection, hd, hs, runDocs]
        simp
      simp only [runCollections, hrc]
      obtain ⟨h1, h2, h3⟩ := ih (fun c hc => hcs c (by simp [hc])) (total + 0) ci
      rcases hr2 : runCollections cf cs (total + 0) ci with ⟨evs2, ci2a, res2⟩
      rw [hr2] at h1 h2 h3
      simp only at h1 h2 h3
      subst h1
      refine ⟨by simp, ?_, ?_⟩
      · rw [deleteAddRefs_append]
        dsimp only
        rw [h2]
        simp [deleteAddRefs, List.filterMap_cons]
      · simp only [commitCallCount, commitList_append, List.length_append]
        simp only [commitCallCount] at h3
        rw [h3]
        simp [commitList, List.filterMap_cons]

/-- Commit sizes of one collection's processing are in [1,100]. -/
theorem runCollection_commit_sizes (cf : Nat → Bool) (c : Collection) (ci : Nat) :
    ∀ x ∈ commitList (runCollection cf c ci).1,
      1 ≤ x.2.1.length ∧ x.2.1.length ≤ 100 := by
  rw [runCollection_commitList]
  exact runDocs_commit_sizes c.id c.streamFails cf c.docs [] 0 ci (by simp)

/-- Commit sizes of the whole collection loop are in [1,100]. -/
theorem runCollections_commit_sizes (cf : Nat → Bool) (cs : List Collection) :
    ∀ total ci, ∀ x ∈ commitList (runCollections cf cs total ci).1,
      1 ≤ x.2.1.length ∧ x.2.1.length ≤ 100 := by
  induction cs with
  | nil => intro total ci x hx; simp [runCollections, commitList] at hx
  | cons c cs ih =>
      intro total ci x hx
      simp only [runCollections] at hx
      rcases hr : runCollection cf c ci with ⟨evs1, ci1, res1⟩
      rw [hr] at hx
      have hs1 := runCollection_commit_sizes cf c ci
      rw [hr] at hs1
      rcases res1 with _ | n
      · exact hs1 x (by simpa using hx)
      · dsimp only at hx
        rcases hr2 : runCollections cf cs (total + n) ci1 with ⟨evs2, ci2a, res2⟩
        rw [hr2] at hx
        simp only at hx
        rw [commitList_append] at hx
        rcases List.mem_append.mp hx with hx | hx
        · exact hs1 x hx
        · have := ih (total + n) ci1
          rw [hr2] at this
          exact this x hx

/-- A trace containing no grand-total event reports no total. -/
theorem totalReported_eq_none (evs : List Event)
    (h : ∀ t, Event.reportTotal t ∉ evs) : totalReported evs = none := by
  have hnil : (evs.filterMap fun e => match e with
      | Event.reportTotal n => some n
      | _ => none) = [] := by
    rw [List.filterMap_eq_nil_iff]
    intro a ha
    cases a <;> first | rfl | exact absurd ha (h _)
  simp [totalReported, hnil]

/-- Anatomy of a successful run: all of authentication, client
construction and enumeration succeeded, the collection loop returned a
total, and the trace is the enumeration call, the loop's events, then the
grand-total report. -/
theorem clear_firestore_success (s : Store) (h : (clear_firestore s).2 = true) :
    ∃ evs ci2 T,
      runCollections s.commitFails s.collections 0 0 = (evs, ci2, some T) ∧
      (clear_firestore s).1 = Event.enumerate :: evs ++ [Event.reportTotal T] := by
  by_cases ha : s.authFails = true
  · simp [clear_firestore, ha] at h
  by_cases hc : s.clientFails = true
  · simp [clear_firestore, ha, hc] at h
  by_cases he : s.enumFails = true
  · simp [clear_firestore, ha, hc, he] at h
  rcases hr : runCollections s.commitFails s.collections 0 0 with ⟨evs, ci2, res⟩
  simp only [clear_firestore, ha, hc, he, if_false, hr] at h ⊢
  rcases res with _ | T
  · simp at h
  · exact ⟨evs, ci2, T, rfl, by simp⟩

/-- Anatomy of a failed run: either nothing happened beyond the logged
initialization error, or the trace is the enumeration call, the loop's
events, then the logged error. -/
theorem clear_firestore_failure (s : Store) (h : (clear_firestore s).2 = false) :
    (clear_firestore s).1 = [Event.logError] ∨
    (clear_firestore s).1 = [Event.enumerate, Event.logError] ∨
    ∃ evs ci2,
      runCollections s.commitFails s.collections 0 0 = (evs, ci2, none) ∧
      (clear_firestore s).1 = Event.enumerate :: evs ++ [Event.logError] := by
  by_cases ha : s.authFails = true
  · exact Or.inl (by simp [clear_firestore, ha])
  by_cases hc : s.clientFails = true
  · exact Or.inl (by simp [clear_firestore, ha, hc])
  by_cases he : s.enumFails = true
  · exact Or.inr (Or.inl (by simp [clear_firestore, ha, hc, he]))
  rcases hr : runCollections s.commitFails s.collections 0 0 with ⟨evs, ci2, res⟩
  simp only [clear_firestore, ha, hc, he, if_false, hr] at h ⊢
  rcases res with _ | T
  · exact Or.inr (Or.inr ⟨evs, ci2, rfl, by simp⟩)
  · simp at h

/-- On success, the printed grand total equals the sum of the printed
per-collection counts, which equals the sum of all committed batch
sizes. -/
theorem clear_total_accounting (s : Store) (h : (clear_firestore s).2 = true) :
    totalReported (clear_firestore s).1 =
      some ((collectionReports (clear_firestore s).1).sum) ∧
    committedSizesSum (clear_firestore s).1 =
      (collectionReports (clear_firestore s).1).sum := by
  obtain ⟨evs, ci2, T, hr, htr⟩ := clear_firestore_success s h
  obtain ⟨hT, hsum, hok⟩ :=
    runCollections_success s.commitFails s.collections 0 0 evs ci2 T hr
  have hnt : ∀ t, Event.reportTotal t ∉ evs := by
    intro t
    have hthis := runCollections_no_total s.commitFails s.collections 0 0 t
    rw [hr] at hthis
    simpa using hthis
  have hsplit : Event.enumerate :: evs ++ [Event.reportTotal T] =
      [Event.enumerate] ++ evs ++ [Event.reportTotal T] := rfl
  have hrep : collectionReports (clear_firestore s).1 = collectionReports evs := by
    rw [htr, hsplit, collectionReports_append, collectionReports_append]
    simp [collectionReports, List.filterMap_cons]
  have hnil : (evs.filterMap fun e => match e with
      | Event.reportTotal n => some n
      | _ => none) = [] := by
    rw [List.filterMap_eq_nil_iff]
    intro a ha
    cases a <;> first | rfl | exact absurd ha (hnt _)
  constructor
  · rw [hrep, htr]
    simp only [totalReported, hsplit, List.filterMap_append, List.filterMap_cons,
      List.filterMap_nil, hnil]
    simp only [List.nil_append, List.head?]
    rw [Nat.zero_add] at hT
    rw [← hT]
  · rw [hrep, htr, hsplit, committedSizesSum_append, committedSizesSum_append]
    simp only [committedSizesSum, committedBatches, List.filterMap_cons, List.filterMap_nil]
    simp only [committedSizesSum, committedBatches] at hsum
    simpa using hsum

/-- On failure, no grand total is printed. -/
theorem clear_failure_no_total (s : Store) (h : (clear_firestore s).2 = false) :
    totalReported (clear_firestore s).1 = none := by
  rcases clear_firestore_failure s h with htr | htr | ⟨evs, ci2, hr, htr⟩
  · rw [htr]; rfl
  · rw [htr]; rfl
  · have hnt : ∀ t, Event.reportTotal t ∉ evs := by
      intro t
      have hthis := runCollections_no_total s.commitFails s.collections 0 0 t
      rw [hr] at hthis
      simpa using hthis
    rw [htr]
    apply totalReported_eq_none
    intro t hmem
    rcases List.mem_cons.mp hmem with hmem | hmem
    · exact absurd hmem (by simp)
    · rcases List.mem_append.mp hmem with hmem | hmem
      · exact hnt t hmem
      · simp at hmem

/-- A successfully committed batch recorded in a trace corresponds to an
all-good commit call of that trace. -/
theorem committedBatches_mem_commitList (evs : List Event) (b : List Ref)
    (hb : b ∈ committedBatches evs) : ∃ cid, (cid, b, true) ∈ commitList evs := by
  obtain ⟨e, he, hfe⟩ := List.mem_filterMap.mp hb
  cases e
  case commit cid b2 ok =>
    cases ok
    · exact absurd hfe (by simp)
    · have hb2 : b2 = b := by simpa using hfe
      subst hb2
      exact ⟨cid, List.mem_filterMap.mpr ⟨_, he, rfl⟩⟩
  all_goals exact absurd hfe (by simp)

/-! ### Claim theorems -/

/-- C1: for every collection whose document stream yields N documents and
whose processing hits no error, the runner performs exactly ⌈N/100⌉
batch-commit calls when N > 0 and zero commit calls when N = 0, and the
sum of the committed batch sizes equals N. -/
theorem claim1_batch_commit_accounting (c : Collection) (cf : Nat → Bool) (ci : Nat)
    (hsf : c.streamFails = false) (hcf : ∀ i, cf i = false) :
    commitCallCount (runCollection cf c ci).1 =
      (if c.docs.length = 0 then 0 else (c.docs.length + 99) / 100) ∧
    committedSizesSum (runCollection cf c ci).1 = c.docs.length := by
  have hres := runCollection_no_failure cf c ci hsf hcf
  have heq : runCollection cf c ci =
      ((runCollection cf c ci).1, (runCollection cf c ci).2.1, some c.docs.length) := by
    rw [← hres]
  obtain ⟨hn, hrep, hflat, hdel, hcc, hok⟩ :=
    runCollection_success cf c ci _ _ _ heq
  exact ⟨hcc, by rw [committedSizesSum_eq_flatten_length, hflat]⟩

/-- C1 witness: the accounting at the concrete 150-document collection. -/
theorem claim1_witness :
    commitCallCount (runCollection noFail usersCollection 0).1 =
      (if usersCollection.docs.length = 0 then 0
        else (usersCollection.docs.length + 99) / 100) ∧
    committedSizesSum (runCollection noFail usersCollection 0).1 =
      usersCollection.docs.length :=
  claim1_batch_commit_accounting usersCollection noFail 0 rfl (fun _ => rfl)

/-- C2: every batch-commit call of any run carries between 1 and 100
pending deletes; in particular no empty batch is ever submitted. -/
theorem claim2_batch_size_invariant (s : Store) :
    ∀ x ∈ commitList (clear_firestore s).1,
      1 ≤ x.2.1.length ∧ x.2.1.length ≤ 100 := by
  intro x hx
  by_cases ha : s.authFails = true
  · simp [clear_firestore, ha, commitList] at hx
  by_cases hc : s.clientFails = true
  · simp [clear_firestore, ha, hc, commitList] at hx
  by_cases he : s.enumFails = true
  · simp [clear_firestore, ha, hc, he, commitList, List.filterMap_cons] at hx
  rcases hr : runCollections s.commitFails s.collections 0 0 with ⟨evs, ci2, res⟩
  have hs := runCollections_commit_sizes s.commitFails s.collections 0 0
  rw [hr] at hs
  simp only at hs
  simp only [clear_firestore, ha, hc, he, if_false, hr] at hx
  rcases res with _ | T <;>
  · dsimp only at hx
    simp only [commitList, List.filterMap_cons, List.filterMap_append,
      List.filterMap_nil, List.append_nil] at hx
    exact hs x (by simpa [commitList] using hx)

/-- C2 witness: the single commit of the one-document store. -/
theorem claim2_witness :
    1 ≤ (("c", ([0] : List Ref), true) : String × List Ref × Bool).2.1.length ∧
    (("c", ([0] : List Ref), true) : String × List Ref × Bool).2.1.length ≤ 100 :=
  claim2_batch_size_invariant oneDocStore ("c", [0], true) (by decide)

/-- C3: on every successful run, the reported grand total equals the sum
of the reported per-collection counts, which equals the sum of all
committed batch sizes across all collections. -/
theorem claim3_total_accounting (s : Store) (h : (clear_firestore s).2 = true) :
    totalReported (clear_firestore s).1 =
      some ((collectionReports (clear_firestore s).1).sum) ∧
    committedSizesSum (clear_firestore s).1 =
      (collectionReports (clear_firestore s).1).sum :=
  clear_total_accounting s h

/-- C3 witness: the accounting at the concrete one-document store. -/
theorem claim3_witness :
    totalReported (clear_firestore oneDocStore).1 =
      some ((collectionReports (clear_firestore oneDocStore).1).sum) ∧
    committedSizesSum (clear_firestore oneDocStore).1 =
      (collectionReports (clear_firestore oneDocStore).1).sum :=
  claim3_total_accounting oneDocStore (by decide)

/-- C4: if credential acquisition or client initialization fails, the run
aborts at once — the entire trace is the logged error, so no enumeration,
stream, delete-registration or commit call is ever made — and the function
reports failure. -/
theorem claim4_auth_short_circuit (s : Store)
    (h : s.authFails = true ∨ s.clientFails = true) :
    (clear_firestore s).2 = false ∧ (clear_firestore s).1 = [Event.logError] := by
  rcases h with h | h
  · simp [clear_firestore, h]
  · by_cases ha : s.authFails = true
    · simp [clear_firestore, ha]
    · simp [clear_firestore, ha, h]

/-- C4 witness: the store whose credential acquisition fails. -/
theorem claim4_witness :
    (clear_firestore authFailStore).2 = false ∧
    (clear_firestore authFailStore).1 = [Event.logError] :=
  claim4_auth_short_circuit authFailStore (Or.inl rfl)

/-- C5: every error is converted into an overall failure result — the exit
status is 0 exactly on success and 1 otherwise, a run fails exactly when
its trace ends in the logged error message, and no failed commit call is
ever retried or recovered inline: among all commit calls, every one except
possibly the very last succeeded. -/
theorem claim5_error_propagation (s : Store) :
    mainExitCode s = (if (clear_firestore s).2 = true then 0 else 1) ∧
    ((clear_firestore s).2 = false ↔
      (clear_firestore s).1.getLast? = some Event.logError) ∧
    (∀ x ∈ (commitList (clear_firestore s).1).dropLast, x.2.2 = true) := by
  refine ⟨rfl, ⟨?_, ?_⟩, ?_⟩
  · intro h
    rcases clear_firestore_failure s h with htr | htr | ⟨evs, ci2, hr, htr⟩
    · rw [htr]; rfl
    · rw [htr]; rfl
    · rw [htr, List.getLast?_concat]
  · intro hlast
    rcases hres : (clear_firestore s).2 with _ | _
    · rfl
    · exfalso
      obtain ⟨evs, ci2, T, hr, htr⟩ := clear_firestore_success s hres
      rw [htr, List.getLast?_concat] at hlast
      simp at hlast
  · intro x hx
    by_cases ha : s.authFails = true
    · simp [clear_firestore, ha, commitList] at hx
    by_cases hc : s.clientFails = true
    · simp [clear_firestore, ha, hc, commitList] at hx
    by_cases he : s.enumFails = true
    · simp [clear_firestore, ha, hc, he, commitList, List.filterMap_cons] at hx
    rcases hr : runCollections s.commitFails s.collections 0 0 with ⟨evs, ci2, res⟩
    have hd := runCollections_dropLast_ok s.commitFails s.collections 0 0
    rw [hr] at hd
    simp only at hd
    simp only [clear_firestore, ha, hc, he, if_false, hr] at hx
    rcases res with _ | T <;>
    · dsimp only at hx
      simp only [commitList, List.filterMap_cons, List.filterMap_append,
        List.filterMap_nil, List.append_nil] at hx
      exact hd x (by simpa [commitList] using hx)

set_option maxRecDepth 100000 in
/-- C5 witness: exit code 1 and a trailing error log at the failing store,
and the first of the two scenario commits (which is not the last commit
call) succeeded. -/
theorem claim5_witness :
    mainExitCode authFailStore = 1 ∧
    (clear_firestore authFailStore).1.getLast? = some Event.logError ∧
    (("users", List.range 100, true) : String × List Ref × Bool).2.2 = true :=
  ⟨((claim5_error_propagation authFailStore).1).trans (by decide),
   ((claim5_error_propagation authFailStore).2.1).mp (by decide),
   (claim5_error_propagation scenarioStore).2.2 ("users", List.range 100, true)
     (by decide)⟩

/-- C6 counterexample: the claim says the successful return value carries
the total deleted count, but `clear_firestore` returns only the boolean
`True` on success — two runs with different totals return the same value,
so no reading of the return value can recover the total. -/
theorem claim6_counterexample :
    ¬ ∃ f : Bool → Nat, ∀ s : Store, (clear_firestore s).2 = true →
        some (f (clear_firestore s).2) = totalReported (clear_firestore s).1 := by
  rintro ⟨f, hf⟩
  have h1 := hf oneDocStore (by decide)
  have h2 := hf twoDocStore (by decide)
  rw [show (clear_firestore oneDocStore).2 = true from by decide,
    show totalReported (clear_firestore oneDocStore).1 = some 1 from by decide] at h1
  rw [show (clear_firestore twoDocStore).2 = true from by decide,
    show totalReported (clear_firestore twoDocStore).1 = some 2 from by decide] at h2
  have h3 := h1.symm.trans h2
  simp at h3

/-- C6 amended: the runner's contract is run() -> Bool — on success it
returns True, the total deleted count being only printed (as the grand
total, which equals the sum of committed batch sizes); on failure it
returns False and no grand total is printed. -/
theorem claim6_contract_amended (s : Store) :
    ((clear_firestore s).2 = true → totalReported (clear_firestore s).1 =
      some (committedSizesSum (clear_firestore s).1)) ∧
    ((clear_firestore s).2 = false → totalReported (clear_firestore s).1 = none) := by
  constructor
  · intro h
    obtain ⟨h1, h2⟩ := clear_total_accounting s h
    rw [h1, h2]
  · exact clear_failure_no_total s

/-- C6 amended witness: both branches of the amended contract at concrete
stores. -/
theorem claim6_witness :
    totalReported (clear_firestore oneDocStore).1 =
      some (committedSizesSum (clear_firestore oneDocStore).1) ∧
    totalReported (clear_firestore authFailStore).1 = none :=
  ⟨(claim6_contract_amended oneDocStore).1 (by decide),
   (claim6_contract_amended authFailStore).2 (by decide)⟩

set_option maxRecDepth 100000 in
/-- C7: on the two-collection scenario store ("users" with 150 documents,
"logs" with none) the run makes exactly two commits for "users", of sizes
100 then 50, none for "logs", reports counts 150 and 0, reports a grand
total of 150 and exits with code 0. -/
theorem claim7_scenario :
    commitSizesFor "users" (clear_firestore scenarioStore).1 = [100, 50] ∧
    commitSizesFor "logs" (clear_firestore scenarioStore).1 = [] ∧
    Event.reportCollection "users" 150 ∈ (clear_firestore scenarioStore).1 ∧
    Event.reportCollection "logs" 0 ∈ (clear_firestore scenarioStore).1 ∧
    totalReported (clear_firestore scenarioStore).1 = some 150 ∧
    mainExitCode scenarioStore = 0 := by decide

/-- C8: a run over a store whose collections are all already empty makes
no delete-registration and no commit call, reports a total of 0, and
succeeds. -/
theorem claim8_empty_store (s : Store)
    (ha : s.authFails = false) (hc : s.clientFails = false) (he : s.enumFails = false)
    (hcs : ∀ c ∈ s.collections, c.docs = [] ∧ c.streamFails = false) :
    deleteAddRefs (clear_firestore s).1 = [] ∧
    commitCallCount (clear_firestore s).1 = 0 ∧
    totalReported (clear_firestore s).1 = some 0 ∧
    (clear_firestore s).2 = true := by
  obtain ⟨h1, h2, h3⟩ := runCollections_empty s.commitFails s.collections hcs 0 0
  rcases hr : runCollections s.commitFails s.collections 0 0 with ⟨evs, ci2, res⟩
  rw [hr] at h1 h2 h3
  simp only at h1 h2 h3
  subst h1
  have htr : clear_firestore s = (Event.enumerate :: evs ++ [Event.reportTotal 0], true) := by
    simp [clear_firestore, ha, hc, he, hr]
  have hnt : ∀ t, Event.reportTotal t ∉ evs := by
    intro t
    have hthis := runCollections_no_total s.commitFails s.collections 0 0 t
    rw [hr] at hthis
    simpa using hthis
  have hnil : (evs.filterMap fun e => match e with
      | Event.reportTotal n => some n
      | _ => none) = [] := by
    rw [List.filterMap_eq_nil_iff]
    intro a haa
    cases a <;> first | rfl | exact absurd haa (hnt _)
  rw [htr]
  have hsplit : Event.enumerate :: evs ++ [Event.reportTotal 0] =
      [Event.enumerate] ++ evs ++ [Event.reportTotal 0] := rfl
  refine ⟨?_, ?_, ?_, rfl⟩
  · rw [show (Event.enumerate :: evs ++ [Event.reportTotal 0], true).1 =
        [Event.enumerate] ++ evs ++ [Event.reportTotal 0] from rfl]
    rw [deleteAddRefs_append, deleteAddRefs_append, h2]
    simp [deleteAddRefs]
  · rw [show (Event.enumerate :: evs ++ [Event.reportTotal 0], true).1 =
        [Event.enumerate] ++ evs ++ [Event.reportTotal 0] from rfl]
    simp only [commitCallCount, commitList_append, List.length_append]
    simp only [commitCallCount] at h3
    rw [h3]
    simp [commitList]
  · rw [show (Event.enumerate :: evs ++ [Event.reportTotal 0], true).1 =
        [Event.enumerate] ++ evs ++ [Event.reportTotal 0] from rfl]
    simp only [totalReported, List.filterMap_append, List.filterMap_nil, hnil]
    rfl

/-- C8 witness: the two-empty-collection store. -/
theorem claim8_witness :
    deleteAddRefs (clear_firestore emptyColStore).1 = [] ∧
    commitCallCount (clear_firestore emptyColStore).1 = 0 ∧
    totalReported (clear_firestore emptyColStore).1 = some 0 ∧
    (clear_firestore emptyColStore).2 = true :=
  claim8_empty_store emptyColStore rfl rfl rfl (by decide)

/-- C9: the grand-total summary is printed exactly when the run succeeds,
and every reference of every committed batch stays among the run's deleted
references — a failure never rolls back batches committed before it. -/
theorem claim9_total_iff_success (s : Store) :
    ((clear_firestore s).2 = true ↔
      (totalReported (clear_firestore s).1).isSome = true) ∧
    (∀ b ∈ committedBatches (clear_firestore s).1, ∀ r ∈ b,
      r ∈ deletedRefs (clear_firestore s).1) := by
  constructor
  · constructor
    · intro h
      obtain ⟨h1, _⟩ := clear_total_accounting s h
      rw [h1]
      rfl
    · intro h
      rcases hres : (clear_firestore s).2 with _ | _
      · exfalso
        rw [clear_failure_no_total s hres] at h
        simp at h
      · rfl
  · intro b hb r hrb
    exact List.mem_flatten.mpr ⟨b, hb, hrb⟩

/-- C9 witness: at the one-document store, the total is reported and the
committed reference 0 is among the deleted references. -/
theorem claim9_witness :
    (totalReported (clear_firestore oneDocStore).1).isSome = true ∧
    (0 : Ref) ∈ deletedRefs (clear_firestore oneDocStore).1 :=
  ⟨(claim9_total_iff_success oneDocStore).1.mp (by decide),
   (claim9_total_iff_success oneDocStore).2 [0] (by decide) 0 (by decide)⟩

/-- C10: in an error-free pass over one collection, every streamed
document reference is registered for deletion exactly once and the
committed batches concatenate, in stream order, to exactly the stream —
nothing is deleted twice and nothing is skipped — with every committed
batch non-empty and within the 100 cap. -/
theorem claim10_stream_exactly_once (c : Collection) (cf : Nat → Bool) (ci : Nat)
    (hsf : c.streamFails = false) (hcf : ∀ i, cf i = false) :
    deleteAddRefs (runCollection cf c ci).1 = c.docs ∧
    (committedBatches (runCollection cf c ci).1).flatten = c.docs ∧
    (∀ b ∈ committedBatches (runCollection cf c ci).1, b ≠ [] ∧ b.length ≤ 100) := by
  have hres := runCollection_no_failure cf c ci hsf hcf
  have heq : runCollection cf c ci =
      ((runCollection cf c ci).1, (runCollection cf c ci).2.1, some c.docs.length) := by
    rw [← hres]
  obtain ⟨hn, hrep, hflat, hdel, hcc, hok⟩ := runCollection_success cf c ci _ _ _ heq
  refine ⟨hdel, hflat, ?_⟩
  intro b hb
  obtain ⟨cid, hmem⟩ := committedBatches_mem_commitList _ b hb
  have hsz := runCollection_commit_sizes cf c ci (cid, b, true) hmem
  simp only at hsz
  constructor
  · intro hnil
    rw [hnil] at hsz
    simp at hsz
  · exact hsz.2

/-- C10 witness: the 150-document collection processed without errors. -/
theorem claim10_witness :
    deleteAddRefs (runCollection noFail usersCollection 0).1 = usersCollection.docs ∧
    (committedBatches (runCollection noFail usersCollection 0).1).flatten =
      usersCollection.docs :=
  ⟨(claim10_stream_exactly_once usersCollection noFail 0 rfl (fun _ => rfl)).1,
   (claim10_stream_exactly_once usersCollection noFail 0 rfl (fun _ => rfl)).2.1⟩

end ClearFirestore
